import Mathlib

/-!
Shallow embedding of `periodicx.py` (class `PeriodicExecutor` and the module-level
function `periodicx`).  Timestamps and durations are modelled as rationals; the
clock reading `time.time()` is passed in explicitly wherever the source reads it.
-/

namespace Periodicx

/-- Timestamps and durations (Python floats in the source). -/
abbrev Time := ℚ

/-- State of one `PeriodicExecutor` instance.

Fields mirror the attributes of the Python object: `period`, `skip_missed` and
`handle_sigint` are set in `__init__`; `next_time`, `next_event`, `cancelled` and
`thread` correspond to `_next_time`, `_next_event`, `_cancelled` and `_thread`
(class-level defaults `0`, `None`, `False`, `None`, overwritten per instance by the
methods); `sleep_event` is the flag of the `_sleep_event` Event as seen from a single
instance (its cross-instance sharing is modelled separately below); `queue` is the
event queue of the instance's `sched.scheduler`, holding the absolute times of the
pending events (every scheduled action is `_single`, so an event is just its time). -/
structure ExecState where
  period : Time
  skip_missed : Bool
  handle_sigint : Bool
  next_time : Time
  next_event : Option Time
  cancelled : Bool
  thread : Bool
  sleep_event : Bool
  queue : List Time
deriving DecidableEq

/-- Translation of `PeriodicExecutor.__init__` plus the class-level attribute defaults.
The source constructor stores its arguments, creates an empty scheduler and (when
`handle_sigint` is set) installs a SIGINT handler; it contains no validation of
`period`, invokes nothing and schedules nothing. -/
def PeriodicExecutor.init (period : Time) (handle_sigint skip_missed : Bool) : ExecState :=
  { period := period
    skip_missed := skip_missed
    handle_sigint := handle_sigint
    next_time := 0
    next_event := none
    cancelled := false
    thread := false
    sleep_event := false
    queue := [] }

/-- The loop `while self._next_time < time.time(): self._next_time += self.period` from
`PeriodicExecutor._single`, with the clock reading frozen at `now` (the time at which the
callable returned).  The recursion carries `0 < period`, which makes it terminate. -/
def catchUpAux (period now : Time) (hp : 0 < period) (t : Time) : Time :=
  if t < now then catchUpAux period now hp (t + period) else t
termination_by (⌈(now - t) / period⌉).toNat
decreasing_by
  have hp' : period ≠ 0 := ne_of_gt hp
  have h1 : (0 : ℚ) < (now - t) / period := div_pos (by linarith) hp
  have h2 : (now - (t + period)) / period = (now - t) / period - 1 := by
    field_simp
    ring
  have h3 : (0 : ℤ) < ⌈(now - t) / period⌉ := Int.ceil_pos.mpr h1
  rw [h2, Int.ceil_sub_one]
  omega

/-- Total wrapper for the skip-missed loop: for `period ≤ 0` and `t < now` the Python loop
would not terminate, so the model returns `t` there; every theorem below assumes
`0 < period`, where this agrees with `catchUpAux`. -/
def catchUp (period now t : Time) : Time :=
  if hp : 0 < period then catchUpAux period now hp t else t

/-- Translation of `PeriodicExecutor._single`, with the clock frozen at `now`.  `fr` is the
outcome of `self.func(*args, **kwargs)`: `Except.ok ()` a normal return, `Except.error e` a
raised exception, which propagates out.  The returned Bool records whether the callable was
invoked.  On a normal return the next-fire-time cursor is advanced by one period, the
skip-missed loop runs when configured, and exactly one new event is placed on the scheduler
queue via `enterabs`. -/
def single {ε : Type} (fr : Except ε Unit) (now : Time) (s : ExecState) :
    Except ε (ExecState × Bool) :=
  if s.cancelled then Except.ok (s, false)
  else
    match fr with
    | Except.error e => Except.error e
    | Except.ok _ =>
      let t1 := s.next_time + s.period
      let t2 := if s.skip_missed then catchUp s.period now t1 else t1
      Except.ok
        ({ s with next_time := t2, next_event := some t2, queue := s.queue ++ [t2] }, true)

/-- State-transformer form of `_single` with a normally returning callable (the error
branch is unreachable for `Except.ok`). -/
def step (now : Time) (s : ExecState) : ExecState :=
  match single (Except.ok () : Except Unit Unit) now s with
  | Except.ok r => r.1
  | Except.error _ => s

/-- Model of `sched.scheduler.cancel`: remove the event from the queue, or `none` when it is
not queued (the source raises `ValueError` there). -/
def schedCancel (q : List Time) (e : Time) : Option (List Time) :=
  if e ∈ q then some (q.erase e) else none

/-- Translation of `PeriodicExecutor.cancel`: set `_cancelled`, try to remove `_next_event`
from the scheduler queue swallowing the `ValueError` of an already-fired event, set the
sleep event, and join the background thread when present (the join has no effect on the
modelled state). -/
def cancel (s : ExecState) : ExecState :=
  let s1 : ExecState := { s with cancelled := true }
  let s2 : ExecState :=
    match s1.next_event with
    | none => s1
    | some e =>
      match schedCancel s1.queue e with
      | some q => { s1 with queue := q }
      | none => s1
  { s2 with sleep_event := true }

/-- Translation of `PeriodicExecutor.run`, covering everything the source executes before
entering `self._scheduler.run()` (the scheduling loop itself is `single` iterated).  It
clears `_cancelled`; with `delay` absent it sets `_next_time` to the clock and calls
`_single` synchronously (so the callable runs, and an exception from it propagates out of
`run`); with `delay` present it only schedules the first event at `now + delay`.  In
non-blocking mode a background thread is then started.  The returned list holds the nominal
times of the invocations performed inside `run` itself. -/
def run {ε : Type} (fr : Except ε Unit) (now : Time) (delay : Option Time) (blocking : Bool)
    (s : ExecState) : Except ε (ExecState × List Time) :=
  let s0 : ExecState := { s with cancelled := false }
  match delay with
  | none =>
    match single fr now { s0 with next_time := now } with
    | Except.error e => Except.error e
    | Except.ok (s1, _) =>
      Except.ok ((if blocking then s1 else { s1 with thread := true }), [now])
  | some d =>
    let t := now + d
    let s1 : ExecState :=
      { s0 with next_time := t, next_event := some t, queue := s0.queue ++ [t] }
    Except.ok ((if blocking then s1 else { s1 with thread := true }), [])

/-- Translation of the module-level `periodicx`: construct an executor, `run` it, and return
the executor only when `blocking` is false (the source's implicit `None` otherwise). -/
def periodicx {ε : Type} (fr : Except ε Unit) (now period : Time) (delay : Option Time)
    (blocking handle_sigint skip_missed : Bool) : Except ε (Option ExecState) :=
  match run fr now delay blocking (PeriodicExecutor.init period handle_sigint skip_missed) with
  | Except.error e => Except.error e
  | Except.ok (ex, _) => Except.ok (if blocking then none else some ex)

/-- One observable step of an executor after `run`: either the scheduler fires `_single`
(`tick`, with the callable's outcome and the clock reading) or `cancel` is called. -/
inductive ExecOp where
  | tick : Except Unit Unit → Time → ExecOp
  | docancel : ExecOp

/-- Effect of one `ExecOp` on the state; the Bool records whether the callable was invoked
in that step.  When the callable raises, it was invoked and the exception ends the loop,
leaving the state as `_single` left it at the raise point. -/
def applyOp (op : ExecOp) (s : ExecState) : ExecState × Bool :=
  match op with
  | ExecOp.tick fr now =>
    match single fr now s with
    | Except.ok r => r
    | Except.error _ => (s, true)
  | ExecOp.docancel => (cancel s, false)

/-- Run a sequence of steps, collecting the invoked-flags. -/
def runOps (ops : List ExecOp) (s : ExecState) : ExecState × List Bool :=
  match ops with
  | [] => (s, [])
  | op :: rest =>
    let r1 := applyOp op s
    let r2 := runOps rest r1.1
    (r2.1, r1.2 :: r2.2)

/-- Error type of the spec's construction-time validation. -/
inductive ConfigError where
  | invalidConfiguration
deriving DecidableEq

/-- Modelled from the spec: the spec's words in §4.1 and §7 demand that construction
validate the period and fail with `InvalidConfiguration` for `period ≤ 0`.  The source
`__init__` (see `PeriodicExecutor.init`) is the authority and contains no such check; this
definition exists only to exhibit the divergence. -/
def initPerSpec (period : Time) (handle_sigint skip_missed : Bool) :
    Except ConfigError ExecState :=
  if period ≤ 0 then Except.error ConfigError.invalidConfiguration
  else Except.ok (PeriodicExecutor.init period handle_sigint skip_missed)

/-- Per-instance attribute dictionary of one `PeriodicExecutor`, for reasoning about two
coexisting instances.  It holds exactly the attributes the methods write through
`self.x = ...`, which Python therefore stores per instance. -/
structure InstDict where
  cancelled : Bool
  next_event : Option Time
  queue : List Time
  thread : Bool
deriving DecidableEq

/-- Two coexisting `PeriodicExecutor` instances, following Python attribute semantics of the
class body: `_sleep_event = Event()` executes once when the class is created, and since no
method ever assigns `self._sleep_event`, lookup on every instance resolves to that one
class-level Event.  Its flag `sleep_event` is therefore a single field shared by both
instances, while the attributes in `InstDict` are per-instance. -/
structure TwoWorld where
  a : InstDict
  b : InstDict
  sleep_event : Bool
deriving DecidableEq

/-- Restriction of `PeriodicExecutor.cancel` to the per-instance attributes it touches. -/
def cancelInst (d : InstDict) : InstDict :=
  let d1 : InstDict := { d with cancelled := true }
  match d1.next_event with
  | none => d1
  | some e =>
    match schedCancel d1.queue e with
    | some q => { d1 with queue := q }
    | none => d1

/-- Effect of `cancel` called on instance `a`: its per-instance attributes are updated, and
its `self._sleep_event.set()` writes the one class-level Event. -/
def cancelOnA (w : TwoWorld) : TwoWorld :=
  { w with a := cancelInst w.a, sleep_event := true }

/-- Whether `_sleep` running on instance `b` blocks for its full timeout: it waits on
`self._sleep_event`, which resolves to the class-level Event, so it blocks iff that flag is
unset. -/
def sleepBlocksB (w : TwoWorld) : Bool :=
  !w.sleep_event

/-- Two freshly constructed instances, neither cancelled, with the class-level Event unset. -/
def freshWorld : TwoWorld :=
  { a := { cancelled := false, next_event := none, queue := [], thread := false }
    b := { cancelled := false, next_event := none, queue := [], thread := false }
    sleep_event := false }

/-- Concrete state of the shape `run(delay=d)` leaves behind: one pending event, matching
`next_event`, background thread running.  Used as input in witnesses below. -/
def sampleRunning : ExecState :=
  { period := 1, skip_missed := true, handle_sigint := true, next_time := 1,
    next_event := some 1, cancelled := false, thread := true, sleep_event := false,
    queue := [1] }

/-!
Helper lemmas about the skip-missed loop and the operations.
-/

theorem catchUpAux_grid (period now : Time) (hp : 0 < period) (t : Time) :
    ∃ k : ℕ, catchUpAux period now hp t = t + k * period := by
  induction t using catchUpAux.induct period now hp with
  | case1 x hx ih =>
    obtain ⟨k, hk⟩ := ih
    refine ⟨k + 1, ?_⟩
    rw [catchUpAux, if_pos hx, hk]
    push_cast
    ring
  | case2 x hx =>
    refine ⟨0, ?_⟩
    rw [catchUpAux, if_neg hx]
    simp

theorem now_le_catchUpAux (period now : Time) (hp : 0 < period) (t : Time) :
    now ≤ catchUpAux period now hp t := by
  induction t using catchUpAux.induct period now hp with
  | case1 x hx ih =>
    rw [catchUpAux, if_pos hx]
    exact ih
  | case2 x hx =>
    rw [catchUpAux, if_neg hx]
    exact not_lt.mp hx

theorem catchUpAux_min (period now : Time) (hp : 0 < period) (t : Time) :
    ∀ j : ℕ, now ≤ t + j * period → catchUpAux period now hp t ≤ t + j * period := by
  induction t using catchUpAux.induct period now hp with
  | case1 x hx ih =>
    intro j hj
    rw [catchUpAux, if_pos hx]
    cases j with
    | zero =>
      simp only [Nat.cast_zero, zero_mul, add_zero] at hj
      linarith
    | succ i =>
      have h2 : now ≤ (x + period) + (i : ℚ) * period := by push_cast at hj ⊢; linarith
      have h3 := ih i h2
      push_cast at h3 ⊢
      linarith
  | case2 x hx =>
    intro j hj
    rw [catchUpAux, if_neg hx]
    have h4 : (0 : ℚ) ≤ (j : ℚ) * period := by positivity
    linarith

theorem catchUp_pos (period now t : Time) (hp : 0 < period) :
    catchUp period now t = catchUpAux period now hp t := dif_pos hp

theorem step_no_skip (now : Time) (s : ExecState) (hc : s.cancelled = false)
    (hsk : s.skip_missed = false) :
    step now s = { s with next_time := s.next_time + s.period,
                          next_event := some (s.next_time + s.period),
                          queue := s.queue ++ [s.next_time + s.period] } := by
  simp [step, single, hc, hsk]

theorem foldl_step_no_skip (nows : List Time) :
    ∀ s : ExecState, s.cancelled = false → s.skip_missed = false →
      (nows.foldl (fun st n => step n st) s).next_time
        = s.next_time + (nows.length : ℚ) * s.period := by
  induction nows with
  | nil =>
    intro s _ _
    simp
  | cons n rest ih =>
    intro s hc hsk
    have h1 := step_no_skip n s hc hsk
    simp only [List.foldl_cons]
    rw [ih (step n s) (by simp [h1, hc]) (by simp [h1, hsk]), h1]
    simp only [List.length_cons]
    push_cast
    ring

theorem cancel_cancelled (s : ExecState) : (cancel s).cancelled = true := by
  unfold cancel
  rcases hne : s.next_event with _ | e
  · simp [hne]
  · rcases hq : schedCancel s.queue e with _ | q <;> simp [hne, hq]

theorem run_some_eq {ε : Type} (fr : Except ε Unit) (s : ExecState) (now d : Time)
    (b : Bool) :
    run fr now (some d) b s =
      Except.ok ({ s with
        cancelled := false,
        next_time := now + d,
        next_event := some (now + d),
        queue := s.queue ++ [now + d],
        thread := if b then s.thread else true }, []) := by
  cases b <;> simp [run]

theorem run_none_ok {ε : Type} (s : ExecState) (now : Time) (b : Bool) :
    run (Except.ok () : Except ε Unit) now none b s =
      Except.ok ({ s with
        cancelled := false,
        next_time := if s.skip_missed then catchUp s.period now (now + s.period)
          else now + s.period,
        next_event := some (if s.skip_missed then catchUp s.period now (now + s.period)
          else now + s.period),
        queue := s.queue ++ [if s.skip_missed then catchUp s.period now (now + s.period)
          else now + s.period],
        thread := if b then s.thread else true }, [now]) := by
  cases b <;> simp [run, single]

theorem run_none_error {ε : Type} (e : ε) (s : ExecState) (now : Time) (b : Bool) :
    run (Except.error e : Except ε Unit) now none b s = Except.error e := by
  simp [run, single]

/-!
Claim theorems.
-/

/-- C1: with `skip_missed = true` and positive period, when the callable returns at time
`now`, `_single` sets the next nominal fire time to the smallest grid point
`next_time + k * period` (with `k ≥ 1`, hence strictly greater than the previous nominal
fire time) that is ≥ `now`, and schedules exactly one event, at exactly that time — no
intermediate missed grid point gets a separate event or invocation. -/
theorem single_skip_missed_minimal_grid (s : ExecState) (now : Time)
    (hp : 0 < s.period) (hskip : s.skip_missed = true) (hc : s.cancelled = false) :
    ∃ s2 : ExecState,
      single (Except.ok () : Except Unit Unit) now s = Except.ok (s2, true) ∧
      (∃ k : ℕ, 1 ≤ k ∧ s2.next_time = s.next_time + (k : ℚ) * s.period) ∧
      now ≤ s2.next_time ∧
      (∀ j : ℕ, 1 ≤ j → now ≤ s.next_time + (j : ℚ) * s.period →
        s2.next_time ≤ s.next_time + (j : ℚ) * s.period) ∧
      s2.queue = s.queue ++ [s2.next_time] ∧
      s2.next_event = some s2.next_time := by
  refine ⟨{ s with
      next_time := catchUpAux s.period now hp (s.next_time + s.period),
      next_event := some (catchUpAux s.period now hp (s.next_time + s.period)),
      queue := s.queue ++ [catchUpAux s.period now hp (s.next_time + s.period)] },
    ?_, ?_, ?_, ?_, rfl, rfl⟩
  · simp [single, hc, hskip, catchUp_pos s.period now (s.next_time + s.period) hp]
  · obtain ⟨k, hk⟩ := catchUpAux_grid s.period now hp (s.next_time + s.period)
    refine ⟨k + 1, Nat.le_add_left 1 k, ?_⟩
    simp only [hk]
    push_cast
    ring
  · exact now_le_catchUpAux s.period now hp (s.next_time + s.period)
  · intro j hj hnow
    cases j with
    | zero => exact absurd hj (by norm_num)
    | succ i =>
      have h2 : now ≤ (s.next_time + s.period) + (i : ℚ) * s.period := by
        push_cast at hnow ⊢
        linarith
      have h3 := catchUpAux_min s.period now hp (s.next_time + s.period) i h2
      push_cast at h3 ⊢
      linarith

/-- Witness for C1: executor with period 1 and nominal time 0, callable returns at 5/2. -/
theorem single_skip_missed_minimal_grid_w :
    ∃ s2 : ExecState,
      single (Except.ok () : Except Unit Unit) (5/2) (PeriodicExecutor.init 1 true true)
        = Except.ok (s2, true) ∧
      (∃ k : ℕ, 1 ≤ k ∧ s2.next_time = (PeriodicExecutor.init 1 true true).next_time
          + (k : ℚ) * (PeriodicExecutor.init 1 true true).period) ∧
      (5/2 : ℚ) ≤ s2.next_time ∧
      (∀ j : ℕ, 1 ≤ j → (5/2 : ℚ) ≤ (PeriodicExecutor.init 1 true true).next_time
          + (j : ℚ) * (PeriodicExecutor.init 1 true true).period →
        s2.next_time ≤ (PeriodicExecutor.init 1 true true).next_time
          + (j : ℚ) * (PeriodicExecutor.init 1 true true).period) ∧
      s2.queue = (PeriodicExecutor.init 1 true true).queue ++ [s2.next_time] ∧
      s2.next_event = some s2.next_time :=
  single_skip_missed_minimal_grid (PeriodicExecutor.init 1 true true) (5/2)
    (by norm_num [PeriodicExecutor.init]) rfl rfl

/-- C2: every update of the next-fire-time cursor performed by `_single` adds a positive
whole multiple of `period` to its previous value — whatever the clock reads — and exactly one
period when `skip_missed` is false; iterating the loop with `skip_missed = false` therefore
keeps every nominal fire time on the arithmetic grid `t0 + n * period` for the `t0` the state
held at the start. -/
theorem next_time_grid_advance (s : ExecState) (now : Time) (hp : 0 < s.period)
    (hc : s.cancelled = false) :
    (∃ k : ℕ, 1 ≤ k ∧ (step now s).next_time = s.next_time + (k : ℚ) * s.period) ∧
    (s.skip_missed = false → (step now s).next_time = s.next_time + s.period) ∧
    (s.skip_missed = false → ∀ nows : List Time,
      (nows.foldl (fun st n => step n st) s).next_time
        = s.next_time + (nows.length : ℚ) * s.period) := by
  refine ⟨?_, fun hsk => by rw [step_no_skip now s hc hsk],
    fun hsk nows => foldl_step_no_skip nows s hc hsk⟩
  cases hsk : s.skip_missed with
  | false =>
    refine ⟨1, le_refl 1, ?_⟩
    rw [step_no_skip now s hc hsk]
    push_cast
    ring
  | true =>
    obtain ⟨k, hk⟩ := catchUpAux_grid s.period now hp (s.next_time + s.period)
    refine ⟨k + 1, Nat.le_add_left 1 k, ?_⟩
    simp [step, single, hc, hsk, catchUp_pos s.period now (s.next_time + s.period) hp, hk]
    ring

/-- Witness for C2: executor with period 2, `skip_missed = false`, stepped at clock 9. -/
theorem next_time_grid_advance_w :
    (∃ k : ℕ, 1 ≤ k ∧ (step 9 (PeriodicExecutor.init 2 true false)).next_time
        = (PeriodicExecutor.init 2 true false).next_time
          + (k : ℚ) * (PeriodicExecutor.init 2 true false).period) ∧
    ((PeriodicExecutor.init 2 true false).skip_missed = false →
      (step 9 (PeriodicExecutor.init 2 true false)).next_time
        = (PeriodicExecutor.init 2 true false).next_time
          + (PeriodicExecutor.init 2 true false).period) ∧
    ((PeriodicExecutor.init 2 true false).skip_missed = false → ∀ nows : List Time,
      (nows.foldl (fun st n => step n st) (PeriodicExecutor.init 2 true false)).next_time
        = (PeriodicExecutor.init 2 true false).next_time
          + (nows.length : ℚ) * (PeriodicExecutor.init 2 true false).period) :=
  next_time_grid_advance (PeriodicExecutor.init 2 true false) 9
    (by norm_num [PeriodicExecutor.init]) rfl

/-- C3: the sleep-interruption event is NOT owned exclusively by one instance.  In the
source, `_sleep_event = Event()` is a class attribute and no method assigns
`self._sleep_event`, so every instance's `_sleep` and `cancel` resolve to the same Event
object: starting from two fresh instances, `cancel` on instance a flips the very flag
instance b's `_sleep` waits on (so b's sleep no longer blocks), even though b's own
per-instance attributes are untouched. -/
theorem sleep_event_shared_across_instances :
    sleepBlocksB freshWorld = true ∧
    sleepBlocksB (cancelOnA freshWorld) = false ∧
    (cancelOnA freshWorld).b = freshWorld.b ∧
    (cancelOnA freshWorld).a.cancelled = true :=
  ⟨rfl, rfl, rfl, rfl⟩

/-- C4 counterexample: constructing with period = -1 does not fail.  The spec-modelled
checked constructor rejects it with `InvalidConfiguration`, but the source `__init__`
performs no validation and returns an ordinary, fully initialised executor state. -/
theorem init_negative_period_succeeds :
    initPerSpec (-1) true true = Except.error ConfigError.invalidConfiguration ∧
    PeriodicExecutor.init (-1) true true =
      { period := -1, skip_missed := true, handle_sigint := true, next_time := 0,
        next_event := none, cancelled := false, thread := false, sleep_event := false,
        queue := [] } := ⟨rfl, rfl⟩

/-- C4 amended: construction never validates `period`: for every period, including
non-positive ones, it succeeds, stores the period as given, performs no invocation and
starts no timer (empty scheduler queue, no pending event, no thread). -/
theorem init_accepts_any_period (period : Time) (hs sk : Bool) :
    (PeriodicExecutor.init period hs sk).period = period ∧
    (PeriodicExecutor.init period hs sk).queue = [] ∧
    (PeriodicExecutor.init period hs sk).next_event = none ∧
    (PeriodicExecutor.init period hs sk).thread = false ∧
    (PeriodicExecutor.init period hs sk).cancelled = false :=
  ⟨rfl, rfl, rfl, rfl, rfl⟩

/-- C5 counterexample: a second `run` on an executor that is already running is not
rejected: it returns normally (no `AlreadyRunning` error exists in the source), and the
scheduler queue afterwards holds two pending first events — one per started loop. -/
theorem double_run_accepted :
    ((run (Except.ok () : Except Unit Unit) 0 (some 1) false
        (PeriodicExecutor.init 1 true true)).bind
      (fun r => run (Except.ok () : Except Unit Unit) 5 (some 1) false r.1)).map
      (fun r => (r.1.queue, r.1.cancelled, r.1.thread)) = Except.ok ([1, 6], false, true) := by
  norm_num [run, PeriodicExecutor.init, Except.map, Except.bind]

/-- C5 amended: `run` performs no already-running check: on every state — including one on
which `run` was already called and `cancel` was not — a further `run` succeeds, resets the
cancelled flag, and (with a delay) appends a fresh first event to whatever is already
queued, thereby starting a second scheduling loop instead of raising `AlreadyRunning`. -/
theorem run_never_rejects (s : ExecState) (now d : Time) (b : Bool) :
    (∃ s1 : ExecState,
      run (Except.ok () : Except Unit Unit) now (some d) b s = Except.ok (s1, []) ∧
      s1.cancelled = false ∧ s1.queue = s.queue ++ [now + d]) ∧
    (∃ s2 : ExecState,
      run (Except.ok () : Except Unit Unit) now none b s = Except.ok (s2, [now]) ∧
      s2.cancelled = false) :=
  ⟨⟨_, run_some_eq _ s now d b, rfl, rfl⟩, ⟨_, run_none_ok s now b, rfl⟩⟩

/-- C6 counterexample: the cancelled flag is not one-way: `run` is an operation that resets
it to false after `cancel` set it (line `self._cancelled = False` at the top of `run`). -/
theorem run_resets_cancelled :
    (cancel (PeriodicExecutor.init 1 true true)).cancelled = true ∧
    (run (Except.ok () : Except Unit Unit) 0 (some 1) true
        (cancel (PeriodicExecutor.init 1 true true))).map (fun r => r.1.cancelled)
      = Except.ok false := ⟨rfl, rfl⟩

/-- C6 amended: among the loop's own operations (`_single` ticks and `cancel`) the
cancelled flag only ever goes false→true: once it is true, any sequence of such steps keeps
it true and performs no further invocation of the callable; only a new call to `run` resets
the flag. -/
theorem cancelled_monotone_no_invocation (s : ExecState) (h : s.cancelled = true)
    (ops : List ExecOp) :
    (runOps ops s).1.cancelled = true ∧ ∀ b ∈ (runOps ops s).2, b = false := by
  induction ops generalizing s with
  | nil => exact ⟨h, by simp [runOps]⟩
  | cons op rest ih =>
    have h1 : (applyOp op s).1.cancelled = true ∧ (applyOp op s).2 = false := by
      cases op with
      | tick fr now => simp [applyOp, single, h]
      | docancel => exact ⟨cancel_cancelled s, rfl⟩
    obtain ⟨hrest1, hrest2⟩ := ih (applyOp op s).1 h1.1
    refine ⟨by simpa [runOps] using hrest1, ?_⟩
    intro b hb
    simp only [runOps, List.mem_cons] at hb
    rcases hb with hb | hb
    · rw [hb]
      exact h1.2
    · exact hrest2 b hb

/-- Witness for C6: a freshly cancelled executor stepped through a further cancel and a
tick. -/
theorem cancelled_monotone_no_invocation_w :
    (runOps [ExecOp.docancel, ExecOp.tick (Except.ok ()) 3]
        (cancel (PeriodicExecutor.init 1 true true))).1.cancelled = true ∧
    ∀ b ∈ (runOps [ExecOp.docancel, ExecOp.tick (Except.ok ()) 3]
        (cancel (PeriodicExecutor.init 1 true true))).2, b = false :=
  cancelled_monotone_no_invocation (cancel (PeriodicExecutor.init 1 true true)) rfl
    [ExecOp.docancel, ExecOp.tick (Except.ok ()) 3]

/-- C7: `run` with `delay` absent performs the first invocation immediately inside `run`
with nominal time equal to the clock reading, before any wait; `run` with `delay` present —
including zero — performs no invocation inside `run` and schedules the single first event at
nominal time `now + delay`. -/
theorem run_delay_semantics (s : ExecState) (now d : Time) (b : Bool) :
    (∃ s1 : ExecState,
      run (Except.ok () : Except Unit Unit) now none b s = Except.ok (s1, [now])) ∧
    (∃ s2 : ExecState,
      run (Except.ok () : Except Unit Unit) now (some d) b s = Except.ok (s2, []) ∧
      s2.next_time = now + d ∧ s2.next_event = some (now + d) ∧
      s2.queue = s.queue ++ [now + d]) :=
  ⟨⟨_, run_none_ok s now b⟩, ⟨_, run_some_eq _ s now d b, rfl, rfl, rfl⟩⟩

/-- C8: `cancel` is idempotent and total: on any state whose pending event occurs at most
once in the queue (the invariant of real schedules — at most one event is ever pending),
cancelling twice equals cancelling once, the flag ends up set, and no invocation of the
callable occurs; the failed removal of an already-fired event is absorbed (the `ValueError`
branch of the model), never surfaced. -/
theorem cancel_idempotent_benign (s : ExecState)
    (h : s.next_event.elim True fun e => s.queue.count e ≤ 1) :
    cancel (cancel s) = cancel s ∧ (cancel s).cancelled = true ∧
    (applyOp ExecOp.docancel s).2 = false := by
  refine ⟨?_, cancel_cancelled s, rfl⟩
  rcases hne : s.next_event with _ | e
  · simp [cancel, hne]
  · rw [hne] at h
    simp only [Option.elim] at h
    by_cases hin : e ∈ s.queue
    · have hcount : s.queue.count e = 1 :=
        le_antisymm h (List.count_pos_iff.mpr hin)
      have hnotin : e ∉ s.queue.erase e := by
        rw [← List.count_eq_zero, List.count_erase_self, hcount]
      simp [cancel, hne, schedCancel, hin, hnotin]
    · simp [cancel, hne, schedCancel, hin]

/-- Witness for C8: cancelling a running executor with its one pending event queued. -/
theorem cancel_idempotent_benign_w :
    cancel (cancel sampleRunning) = cancel sampleRunning ∧
    (cancel sampleRunning).cancelled = true ∧
    (applyOp ExecOp.docancel sampleRunning).2 = false :=
  cancel_idempotent_benign sampleRunning (by simp [sampleRunning])

/-- C9: `periodicx` returns the constructed executor exactly when `blocking` is false, and
returns nothing (`None`) when `blocking` is true. -/
theorem periodicx_handle_iff_nonblocking (now period : Time) (delay : Option Time)
    (b hs sk : Bool) :
    ∃ ex : ExecState,
      periodicx (Except.ok () : Except Unit Unit) now period delay b hs sk
        = Except.ok (if b then none else some ex) := by
  cases delay with
  | none => exact ⟨_, by rw [periodicx, run_none_ok]⟩
  | some d => exact ⟨_, by rw [periodicx, run_some_eq]⟩

/-- C10: `run` with `delay = None` and `blocking = False` executes the first invocation
synchronously on the caller's side before the background thread exists: a raising callable
makes this very `run` call raise (no thread is started), and a returning callable is
invoked once inside `run`, after which the thread flag is set. -/
theorem run_sync_first_call {ε : Type} (e : ε) (s : ExecState) (now : Time) :
    run (Except.error e : Except ε Unit) now none false s = Except.error e ∧
    (∃ s1 : ExecState,
      run (Except.ok () : Except ε Unit) now none false s = Except.ok (s1, [now]) ∧
      s1.thread = true) :=
  ⟨run_none_error e s now false, ⟨_, run_none_ok s now false, rfl⟩⟩

end Periodicx
